import Mathlib

/-!
Verification of the block request scheduler ("wishlist") of
libtransmission (src/libtransmission/peer-mgr-wishlist.cc).

The C++ is shallowly embedded: piece and block indices are `Nat`,
priorities are `Int` (tr_priority_t is a signed small integer), the
mediator interface is a Lean structure whose only mutable part is its
table of active requests, and the stateful mining loop of
`Wishlist::next` is explicit state passing.  Machine-integer overflow
plays no role in the claims checked here, so counters are unbounded
`Nat`; the one signed computation (`cancelSlowRequest`'s score) is an
`Int` with C's truncated division (`Int.tdiv`).
-/

/-- A peer, reduced to what the scheduler observes: an identity (the C++
code works with `tr_peer` pointers) and the value
`get_piece_speed_bytes_per_second(now, TR_PEER_TO_CLIENT)` at the time of
the call, in bytes per second. -/
structure Peer where
  pid : Nat
  speed : Nat
deriving DecidableEq, Repr

/-- The mediator capability bundle of peer-mgr-wishlist.h, plus the
ambient clock `tr_time()` (`now`).  `activeRequests b` is the list of
`(peer, request-issue-time)` pairs behind both `countActiveRequests`
and `getPeersForActiveRequests`; it is the only component the scheduler
can mutate (through request cancellation). -/
structure Mediator where
  countAllPieces : Nat
  clientCanRequestPiece : Nat → Bool
  countMissingBlocks : Nat → Nat
  priority : Nat → Int
  blockSpan : Nat → Nat × Nat
  clientCanRequestBlock : Nat → Bool
  activeRequests : Nat → List (Peer × Nat)
  isSequentialDownload : Bool
  sequentialDownloadFromPiece : Nat
  isEndgame : Bool
  now : Nat

/-- Modelled from the spec: `countActiveRequests(b)` is the number of
peers currently holding a pending request for `b` (the mediator
implementation is outside this file; the spec ties it to the list that
`getPeersForActiveRequests` returns). -/
def Mediator.countActiveRequests (m : Mediator) (b : Nat) : Nat :=
  (m.activeRequests b).length

/-- Modelled from the spec: `getPeersForActiveRequests(b)` returns those
peers and the time each request was issued. -/
def Mediator.getPeersForActiveRequests (m : Mediator) (b : Nat) : List (Peer × Nat) :=
  m.activeRequests b

/-- Modelled from the spec: `tr_cancelRequestForBlock(peer, b)` (defined
in peer-mgr.cc, outside this file) cancels the pending request for `b`
held by `peer`; afterwards that peer no longer appears among the active
requests for `b`. -/
def cancelRequestForBlock (m : Mediator) (p : Peer) (b : Nat) : Mediator :=
  { m with activeRequests := fun b2 =>
      if b2 = b then (m.activeRequests b).filter (fun e => e.1.pid ≠ p.pid)
      else m.activeRequests b2 }

/-- tr_block_info::BlockSize: the fixed block size in bytes. -/
def BlockSize : Nat := 1024 * 16

/-- The struct Candidate of peer-mgr-wishlist.cc. -/
structure Candidate where
  piece : Nat
  n_blocks_missing : Nat
  priority : Int
  salt : Nat
deriving DecidableEq, Repr

/-- Candidate::compare: three-way comparison, least mined first
(fewer missing blocks, then higher priority, then smaller salt). -/
def Candidate.compare (c that : Candidate) : Int :=
  if c.n_blocks_missing ≠ that.n_blocks_missing then
    (if c.n_blocks_missing < that.n_blocks_missing then -1 else 1)
  else if c.priority ≠ that.priority then
    (if c.priority > that.priority then -1 else 1)
  else if c.salt ≠ that.salt then
    (if c.salt < that.salt then -1 else 1)
  else 0

/-- Candidate::operator<. -/
def Candidate.lt (c that : Candidate) : Prop := c.compare that < 0

/-- The non-strict order induced by Candidate::operator< (the order in
which a sorted run of candidates is arranged). -/
def Candidate.le (c that : Candidate) : Prop := c.compare that ≤ 0

instance : DecidableRel Candidate.lt := fun c that => by
  unfold Candidate.lt; infer_instance

instance : DecidableRel Candidate.le := fun c that => by
  unfold Candidate.le; infer_instance

/-- The wanted-pieces pass of getCandidates: pieces the client may
request that still have a missing block, paired with their missing-block
count, in piece-index order. -/
def wantedPieces (m : Mediator) : List (Nat × Nat) :=
  (List.range m.countAllPieces).filterMap fun i =>
    if m.clientCanRequestPiece i then
      if m.countMissingBlocks i = 0 then none
      else some (i, m.countMissingBlocks i)
    else none

/-- The candidate-construction loop of getCandidates: walk the (already
rotated) wanted list with a running index `i`; the salt is the piece
itself in sequential mode and otherwise the i-th draw of the salt
stream. -/
def saltedCandidates (m : Mediator) (salter : Nat → Nat) (isSeq : Bool) :
    Nat → List (Nat × Nat) → List Candidate
  | _, [] => []
  | i, pm :: rest =>
    ⟨pm.1, pm.2, m.priority pm.1, if isSeq then pm.1 else salter i⟩ ::
      saltedCandidates m salter isSeq (i + 1) rest

/-- getCandidates of peer-mgr-wishlist.cc.  `salter` stands for the
external tr_salt_shaker stream (crypto-utils.h, outside this file):
`salter i` is its (i+1)-st draw.  In sequential mode, when
`0 < sequentialDownloadFromPiece < len(wanted)`, the wanted list is
rotated left by that amount (std::rotate). -/
def getCandidates (m : Mediator) (salter : Nat → Nat) : List Candidate :=
  let wanted := wantedPieces m
  let isSeq := m.isSequentialDownload
  let origin := m.sequentialDownloadFromPiece
  let rotated :=
    if isSeq ∧ 0 < origin ∧ origin < wanted.length then
      wanted.drop origin ++ wanted.take origin
    else wanted
  saltedCandidates m salter isSeq 0 rotated

/-- The accumulation loop of makeSpans: `cur` is the open span being
grown; a block equal to `cur.end` extends it, anything else emits `cur`
and opens a fresh one-block span. -/
def makeSpansGo (cur : Nat × Nat) : List Nat → List (Nat × Nat)
  | [] => [cur]
  | b :: rest =>
    if cur.2 = b then makeSpansGo (cur.1, b + 1) rest
    else cur :: makeSpansGo (b, b + 1) rest

/-- makeSpans of peer-mgr-wishlist.cc: coalesce a sorted array of block
indices into contiguous half-open spans. -/
def makeSpans : List Nat → List (Nat × Nat)
  | [] => []
  | b :: rest => makeSpansGo (b, b + 1) rest

/-- Expansion of a span list back into the block indices it covers. -/
def expandSpans (spans : List (Nat × Nat)) : List Nat :=
  (spans.map fun sp => List.range' sp.1 (sp.2 - sp.1)).flatten

/-- Total number of block indices covered by a span list. -/
def totalSpanBlocks (spans : List (Nat × Nat)) : Nat :=
  (spans.map fun sp => sp.2 - sp.1).sum

/-- The heuristic score of cancelSlowRequest, exactly the C integer
arithmetic `int res = (peer_speed / current_peer_speed) -
(((now - when) * peer_speed) / tr_block_info::BlockSize)`: the speeds are
unsigned so the first quotient is `Nat` division; the second term is a
signed product divided with C's truncated division (`Int.tdiv`).
(For `when > now` the C expression wraps in unsigned arithmetic; every
theorem below about this score assumes the request was issued no later
than `now`, which the defining `(now - when)` makes exact.) -/
def slowScore (peerSpeed curSpeed : Nat) (now when : Nat) : Int :=
  (↑(peerSpeed / curSpeed) : Int) -
    (((now : Int) - (when : Int)) * (peerSpeed : Int)).tdiv (BlockSize : Int)

/-- The comparison `res > 1.5` of cancelSlowRequest: `res` is an `int`
converted exactly to `double` and compared against the exact constant
1.5, i.e. an exact rational comparison. -/
def isSlowScore (res : Int) : Prop := (1.5 : ℚ) < (res : ℚ)

instance : DecidablePred isSlowScore := fun res =>
  decidable_of_iff (2 ≤ res) (by
    unfold isSlowScore
    constructor
    · intro h
      calc (1.5 : ℚ) < 2 := by norm_num
        _ ≤ (res : ℚ) := by exact_mod_cast h
    · intro h
      by_contra hc
      have h1 : res ≤ 1 := by omega
      have h2 : (res : ℚ) ≤ 1 := by exact_mod_cast h1
      have : (1.5 : ℚ) < 1 := lt_of_lt_of_le h h2
      norm_num at this)

/-- The peer loop of cancelSlowRequest: walk the active `(peer, when)`
pairs in order, skip peers whose current speed is 0, and return the
first one whose score exceeds 1.5 (the C loop cancels it and returns
immediately); `none` when the loop falls through. -/
def cancelSlowLoop (peerSpeed now : Nat) : List (Peer × Nat) → Option Peer
  | [] => none
  | pw :: rest =>
    if pw.1.speed = 0 then cancelSlowLoop peerSpeed now rest
    else if isSlowScore (slowScore peerSpeed pw.1.speed now pw.2) then some pw.1
    else cancelSlowLoop peerSpeed now rest

/-- cancelSlowRequest of peer-mgr-wishlist.cc.  Returns the updated
mediator together with the list of cancellations issued (each a
`(cancelled peer, block)` pair); the C control flow allows at most one.
A new peer with speed 0 causes an immediate return with no mutation. -/
def cancelSlowRequest (m : Mediator) (block : Nat) (peer : Peer) :
    Mediator × List (Peer × Nat) :=
  let peers := m.getPeersForActiveRequests block
  if peer.speed = 0 then (m, [])
  else
    match cancelSlowLoop peer.speed m.now peers with
    | none => (m, [])
    | some cur => (cancelRequestForBlock m cur block, [(cur, block)])

/-- Ordered insertion into a sorted duplicate-free list: the behaviour
of std::set<tr_block_index_t>::insert. -/
def setInsert (b : Nat) : List Nat → List Nat
  | [] => [b]
  | x :: xs =>
    if b < x then b :: x :: xs
    else if b = x then x :: xs
    else x :: setInsert b xs

/-- The per-call state of Wishlist::next: the mediator threaded through
the call, the ordered set `blocks` picked so far, and three event logs
kept for verification only (they never influence control flow):
`cancels` records each cancellation `(peer, block)` issued through the
preemption routine, `preempts` records each invocation of
cancelSlowRequest as `(block, active-request count at invocation)`, and
`picks` records each insertion into `blocks` as
`(block, re-read active-request count at selection)`. -/
structure NextState where
  m : Mediator
  blocks : List Nat
  cancels : List (Peer × Nat)
  preempts : List (Nat × Nat)
  picks : List (Nat × Nat)

/-- The fresh state at the top of Wishlist::next. -/
def initState (m : Mediator) : NextState :=
  { m := m, blocks := [], cancels := [], preempts := [], picks := [] }

/-- The preemption stage of the inner block loop of Wishlist::next: in
sequential mode, if the block already has an active request, run
slow-request preemption (recording the invocation and any cancellation
it issues). -/
def mineBlockPre (peer : Peer) (isSeq : Bool) (st : NextState) (block : Nat) : NextState :=
  if isSeq ∧ 0 < st.m.countActiveRequests block then
    let r := cancelSlowRequest st.m block peer
    { st with
      m := r.1
      cancels := st.cancels ++ r.2
      preempts := st.preempts ++ [(block, st.m.countActiveRequests block)] }
  else st

/-- The pick stage of the inner block loop of Wishlist::next: re-read
the active-request count, apply the duplication policy (max_peers = 2 in
endgame, else 1), and insert the block (recording the selection). -/
def mineBlockPick (st1 : NextState) (block : Nat) : NextState :=
  let nPeers := st1.m.countActiveRequests block
  let maxPeers : Nat := if st1.m.isEndgame then 2 else 1
  if maxPeers ≤ nPeers then st1
  else
    { st1 with
      blocks := setInsert block st1.blocks
      picks := st1.picks ++ [(block, nPeers)] }

/-- The body of the inner block loop of Wishlist::next, for one block:
skip blocks the client cannot request, then run the preemption stage
followed by the duplication-check-and-pick stage. -/
def mineBlock (peer : Peer) (isSeq : Bool) (st : NextState) (block : Nat) : NextState :=
  if !st.m.clientCanRequestBlock block then st
  else mineBlockPick (mineBlockPre peer isSeq st block) block

/-- The inner loop `for (block = begin; block < end && |blocks| < n_wanted;
++block)` of Wishlist::next, encoded with the fuel `end - begin`: the
call `mineBlocks peer isSeq nWanted (e - b) b st` walks blocks
`b, b+1, …` up to `e`, stopping early once enough blocks are picked. -/
def mineBlocks (peer : Peer) (isSeq : Bool) (nWanted : Nat) :
    Nat → Nat → NextState → NextState
  | 0, _, st => st
  | fuel + 1, b, st =>
    if st.blocks.length < nWanted then
      mineBlocks peer isSeq nWanted fuel (b + 1) (mineBlock peer isSeq st b)
    else st

/-- The candidate loop of Wishlist::next: stop when enough blocks are
picked, otherwise mine the blocks of the candidate's piece span. -/
def mineCandidates (peer : Peer) (isSeq : Bool) (nWanted : Nat) :
    NextState → List Candidate → NextState
  | st, [] => st
  | st, c :: rest =>
    if nWanted ≤ st.blocks.length then st
    else
      let sp := st.m.blockSpan c.piece
      mineCandidates peer isSeq nWanted
        (mineBlocks peer isSeq nWanted (sp.2 - sp.1) sp.1 st) rest

/-- The candidate list Wishlist::next actually iterates: in
non-sequential mode the candidates are sorted by Candidate::operator<
(std::partial_sort fully orders the `min(len, 30)` least candidates and
leaves the rest in unspecified order; the embedding refines that
postcondition with a full stable sort, which is one of its permitted
outcomes); in sequential mode the sorting step is skipped. -/
def orderedCandidates (m : Mediator) (salter : Nat → Nat) : List Candidate :=
  let candidates := getCandidates m salter
  if !m.isSequentialDownload then
    List.insertionSort Candidate.le candidates
  else candidates

/-- Wishlist::next of peer-mgr-wishlist.cc: returns the span list handed
back to the caller together with the final per-call state (mutated
mediator and the verification logs). -/
def Wishlist.next (m : Mediator) (salter : Nat → Nat) (nWanted : Nat) (peer : Peer) :
    List (Nat × Nat) × NextState :=
  if nWanted = 0 then ([], initState m)
  else
    let isSeq := m.isSequentialDownload
    let fin := mineCandidates peer isSeq nWanted (initState m) (orderedCandidates m salter)
    (makeSpans fin.blocks, fin)

/-! ## Properties of the span packer -/

lemma makeSpansGo_extend (a e b : Nat) (rest : List Nat) (h : e = b) :
    makeSpansGo (a, e) (b :: rest) = makeSpansGo (a, b + 1) rest := by
  simp [makeSpansGo, h]

lemma makeSpansGo_emit (a e b : Nat) (rest : List Nat) (h : e ≠ b) :
    makeSpansGo (a, e) (b :: rest) = (a, e) :: makeSpansGo (b, b + 1) rest := by
  simp [makeSpansGo, h]

lemma makeSpansGo_shape (l : List Nat) : ∀ a e, ∃ e2 t, makeSpansGo (a, e) l = (a, e2) :: t := by
  induction l with
  | nil => intro a e; exact ⟨e, [], rfl⟩
  | cons b rest ih =>
    intro a e
    by_cases h : e = b
    · obtain ⟨e2, t, ht⟩ := ih a (b + 1)
      exact ⟨e2, t, by rw [makeSpansGo_extend a e b rest h, ht]⟩
    · exact ⟨e, makeSpansGo (b, b + 1) rest, makeSpansGo_emit a e b rest h⟩

lemma expandSpans_cons (sp : Nat × Nat) (spans : List (Nat × Nat)) :
    expandSpans (sp :: spans) = List.range' sp.1 (sp.2 - sp.1) ++ expandSpans spans := by
  simp [expandSpans]

lemma makeSpansGo_expand (l : List Nat) : ∀ a e, a < e → List.Sorted (· < ·) l →
    (∀ x ∈ l, e ≤ x) → expandSpans (makeSpansGo (a, e) l) = List.range' a (e - a) ++ l := by
  induction l with
  | nil => intro a e _ _ _; simp [makeSpansGo, expandSpans]
  | cons b rest ih =>
    intro a e hae hsort hlb
    have hb : e ≤ b := hlb b (List.mem_cons_self b rest)
    have hrest_sorted : List.Sorted (· < ·) rest := (List.sorted_cons.mp hsort).2
    have hrest_gt : ∀ x ∈ rest, b < x := (List.sorted_cons.mp hsort).1
    by_cases h : e = b
    · rw [makeSpansGo_extend a e b rest h,
        ih a (b + 1) (by omega) hrest_sorted (fun x hx => hrest_gt x hx)]
      have hr : List.range' a (b + 1 - a) = List.range' a (e - a) ++ [b] := by
        have h1 : b + 1 - a = (e - a) + 1 := by omega
        have h2 : a + (e - a) = b := by omega
        rw [h1, List.range'_1_concat, h2]
      rw [hr]
      simp
    · rw [makeSpansGo_emit a e b rest h, expandSpans_cons,
        ih b (b + 1) (by omega) hrest_sorted (fun x hx => hrest_gt x hx)]
      have hone : List.range' b (b + 1 - b) = [b] := by norm_num
      rw [hone]
      simp

lemma makeSpansGo_wf (l : List Nat) : ∀ a e, a < e → (∀ x ∈ l, e ≤ x) →
    List.Sorted (· < ·) l → ∀ s ∈ makeSpansGo (a, e) l, s.1 < s.2 := by
  induction l with
  | nil =>
    intro a e hae _ _ s hs
    simp only [makeSpansGo, List.mem_singleton] at hs
    simp [hs, hae]
  | cons b rest ih =>
    intro a e hae hlb hsort s hs
    have hb : e ≤ b := hlb b (List.mem_cons_self b rest)
    have hrest_sorted : List.Sorted (· < ·) rest := (List.sorted_cons.mp hsort).2
    have hrest_gt : ∀ x ∈ rest, b < x := (List.sorted_cons.mp hsort).1
    by_cases h : e = b
    · rw [makeSpansGo_extend a e b rest h] at hs
      exact ih a (b + 1) (by omega) (fun x hx => hrest_gt x hx) hrest_sorted s hs
    · rw [makeSpansGo_emit a e b rest h] at hs
      rcases List.mem_cons.mp hs with hs1 | hs1
      · simp [hs1, hae]
      · exact ih b (b + 1) (by omega) (fun x hx => hrest_gt x hx) hrest_sorted s hs1

lemma makeSpansGo_chain (l : List Nat) : ∀ a e, a < e → (∀ x ∈ l, e ≤ x) →
    List.Sorted (· < ·) l →
    List.Chain' (fun s t : Nat × Nat => s.2 < t.1) (makeSpansGo (a, e) l) := by
  induction l with
  | nil => intro a e _ _ _; simp [makeSpansGo]
  | cons b rest ih =>
    intro a e hae hlb hsort
    have hb : e ≤ b := hlb b (List.mem_cons_self b rest)
    have hrest_sorted : List.Sorted (· < ·) rest := (List.sorted_cons.mp hsort).2
    have hrest_gt : ∀ x ∈ rest, b < x := (List.sorted_cons.mp hsort).1
    by_cases h : e = b
    · rw [makeSpansGo_extend a e b rest h]
      exact ih a (b + 1) (by omega) (fun x hx => hrest_gt x hx) hrest_sorted
    · have he : e < b := by omega
      rw [makeSpansGo_emit a e b rest h, List.chain'_cons']
      refine ⟨?_, ih b (b + 1) (by omega) (fun x hx => hrest_gt x hx) hrest_sorted⟩
      intro y hy
      obtain ⟨e2, t, ht⟩ := makeSpansGo_shape rest b (b + 1)
      rw [ht] at hy
      simp only [List.head?_cons, Option.mem_some_iff] at hy
      rw [← hy]
      simpa using he

lemma makeSpans_expand (l : List Nat) (hsort : List.Sorted (· < ·) l) :
    expandSpans (makeSpans l) = l := by
  cases l with
  | nil => rfl
  | cons b rest =>
    have hrest_sorted : List.Sorted (· < ·) rest := (List.sorted_cons.mp hsort).2
    have hrest_gt : ∀ x ∈ rest, b < x := (List.sorted_cons.mp hsort).1
    show expandSpans (makeSpansGo (b, b + 1) rest) = b :: rest
    rw [makeSpansGo_expand rest b (b + 1) (by omega) hrest_sorted
      (fun x hx => hrest_gt x hx)]
    norm_num

lemma makeSpans_wf (l : List Nat) (hsort : List.Sorted (· < ·) l) :
    ∀ s ∈ makeSpans l, s.1 < s.2 := by
  cases l with
  | nil => intro s hs; simp [makeSpans] at hs
  | cons b rest =>
    have hrest_sorted : List.Sorted (· < ·) rest := (List.sorted_cons.mp hsort).2
    have hrest_gt : ∀ x ∈ rest, b < x := (List.sorted_cons.mp hsort).1
    exact makeSpansGo_wf rest b (b + 1) (by omega) (fun x hx => hrest_gt x hx) hrest_sorted

lemma makeSpans_chain (l : List Nat) (hsort : List.Sorted (· < ·) l) :
    List.Chain' (fun s t : Nat × Nat => s.2 < t.1) (makeSpans l) := by
  cases l with
  | nil => simp [makeSpans]
  | cons b rest =>
    have hrest_sorted : List.Sorted (· < ·) rest := (List.sorted_cons.mp hsort).2
    have hrest_gt : ∀ x ∈ rest, b < x := (List.sorted_cons.mp hsort).1
    exact makeSpansGo_chain rest b (b + 1) (by omega) (fun x hx => hrest_gt x hx) hrest_sorted

lemma chainSpans_lb (L : List (Nat × Nat)) (hwf : ∀ u ∈ L, u.1 < u.2)
    (hch : List.Chain' (fun s t : Nat × Nat => s.2 < t.1) L) :
    ∀ e, (∀ h1 ∈ L.head?, e < h1.1) → ∀ t ∈ L, e < t.1 := by
  induction L with
  | nil => intro e _ t ht; simp at ht
  | cons u L ih =>
    intro e hhead t ht
    have hu : e < u.1 := hhead u (by simp)
    rcases List.mem_cons.mp ht with h1 | h1
    · rw [h1]; exact hu
    · have hch2 := List.chain'_cons'.mp hch
      refine ih (fun v hv => hwf v (List.mem_cons_of_mem u hv)) hch2.2 e ?_ t h1
      intro h1 hh1
      have : u.2 < h1.1 := hch2.1 h1 hh1
      have : u.1 < u.2 := hwf u (by simp)
      omega

lemma chainSpans_pairwise (L : List (Nat × Nat)) (hwf : ∀ u ∈ L, u.1 < u.2)
    (hch : List.Chain' (fun s t : Nat × Nat => s.2 < t.1) L) :
    List.Pairwise (fun s t : Nat × Nat => s.2 < t.1) L := by
  induction L with
  | nil => simp
  | cons u L ih =>
    have hch2 := List.chain'_cons'.mp hch
    refine List.pairwise_cons.mpr ⟨?_, ih (fun v hv => hwf v (List.mem_cons_of_mem u hv)) hch2.2⟩
    intro t ht
    refine chainSpans_lb L (fun v hv => hwf v (List.mem_cons_of_mem u hv)) hch2.2 u.2 ?_ t ht
    intro h1 hh1
    exact hch2.1 h1 hh1

lemma expandSpans_length (spans : List (Nat × Nat)) :
    (expandSpans spans).length = totalSpanBlocks spans := by
  induction spans with
  | nil => rfl
  | cons sp rest ih =>
    rw [expandSpans_cons]
    simp only [List.length_append, List.length_range', ih, totalSpanBlocks, List.map_cons,
      List.sum_cons]

/-! ## Properties of the ordered block set -/

lemma mem_setInsert (b x : Nat) (l : List Nat) :
    x ∈ setInsert b l ↔ x = b ∨ x ∈ l := by
  induction l with
  | nil => simp [setInsert]
  | cons y ys ih =>
    show x ∈ (if b < y then b :: y :: ys else if b = y then y :: ys else y :: setInsert b ys) ↔ _
    split_ifs with h1 h2
    · simp only [List.mem_cons]
    · subst h2
      simp only [List.mem_cons]
      tauto
    · simp only [List.mem_cons, ih]
      tauto

lemma sorted_setInsert (b : Nat) (l : List Nat) (hs : List.Sorted (· < ·) l) :
    List.Sorted (· < ·) (setInsert b l) := by
  induction l with
  | nil => simp [setInsert]
  | cons y ys ih =>
    have hys : List.Sorted (· < ·) ys := (List.sorted_cons.mp hs).2
    have hgt : ∀ x ∈ ys, y < x := (List.sorted_cons.mp hs).1
    by_cases h1 : b < y
    · simp only [setInsert, if_pos h1]
      refine List.sorted_cons.mpr ⟨?_, hs⟩
      intro x hx
      rcases List.mem_cons.mp hx with h | h
      · omega
      · have := hgt x h; omega
    · by_cases h2 : b = y
      · simp only [setInsert, if_neg h1, if_pos h2]
        exact hs
      · simp only [setInsert, if_neg h1, if_neg h2]
        refine List.sorted_cons.mpr ⟨?_, ih hys⟩
        intro x hx
        rcases (mem_setInsert b x ys).mp hx with h | h
        · omega
        · exact hgt x h

lemma length_setInsert_le (b : Nat) (l : List Nat) :
    (setInsert b l).length ≤ l.length + 1 := by
  induction l with
  | nil => simp [setInsert]
  | cons y ys ih =>
    by_cases h1 : b < y
    · simp [setInsert, if_pos h1]
    · by_cases h2 : b = y
      · simp [setInsert, if_neg h1, if_pos h2]
      · simp only [setInsert, if_neg h1, if_neg h2, List.length_cons]
        omega

/-! ## The candidate order is a total preorder -/

lemma Candidate.compare_flip (a b : Candidate) : a.compare b = -(b.compare a) := by
  unfold Candidate.compare
  split_ifs <;> omega

instance : IsTotal Candidate Candidate.le := by
  constructor
  intro a b
  unfold Candidate.le
  rw [Candidate.compare_flip a b]
  omega

lemma Candidate.le_iff (a b : Candidate) : a.le b ↔
    (a.n_blocks_missing < b.n_blocks_missing ∨
      (a.n_blocks_missing = b.n_blocks_missing ∧
        (b.priority < a.priority ∨ (a.priority = b.priority ∧ a.salt ≤ b.salt)))) := by
  unfold Candidate.le Candidate.compare
  split_ifs <;> omega

instance : IsTrans Candidate Candidate.le := by
  constructor
  intro a b c hab hbc
  rw [Candidate.le_iff] at hab hbc ⊢
  omega

/-! ## Properties of candidate enumeration -/

lemma mem_wantedPieces {m : Mediator} {pm : Nat × Nat} (h : pm ∈ wantedPieces m) :
    pm.1 < m.countAllPieces ∧ m.clientCanRequestPiece pm.1 = true ∧
      0 < m.countMissingBlocks pm.1 ∧ pm.2 = m.countMissingBlocks pm.1 := by
  unfold wantedPieces at h
  rcases List.mem_filterMap.mp h with ⟨i, hi, hf⟩
  have hilt : i < m.countAllPieces := List.mem_range.mp hi
  by_cases h1 : m.clientCanRequestPiece i = true
  · rw [if_pos h1] at hf
    by_cases h2 : m.countMissingBlocks i = 0
    · rw [if_pos h2] at hf
      exact absurd hf (by simp)
    · rw [if_neg h2] at hf
      have hpm : pm = (i, m.countMissingBlocks i) := (Option.some.inj hf).symm
      rw [hpm]
      exact ⟨hilt, h1, Nat.pos_of_ne_zero h2, rfl⟩
  · rw [if_neg h1] at hf
    exact absurd hf (by simp)

lemma saltedCandidates_map_piece (m : Mediator) (salter : Nat → Nat) (isSeq : Bool) :
    ∀ i l, (saltedCandidates m salter isSeq i l).map Candidate.piece = l.map Prod.fst := by
  intro i l
  induction l generalizing i with
  | nil => rfl
  | cons pm rest ih => simp [saltedCandidates, ih]

lemma mem_saltedCandidates {m : Mediator} {salter : Nat → Nat} {isSeq : Bool}
    {c : Candidate} : ∀ {i : Nat} {l : List (Nat × Nat)},
    c ∈ saltedCandidates m salter isSeq i l →
    ∃ pm ∈ l, c.piece = pm.1 ∧ c.n_blocks_missing = pm.2 := by
  intro i l
  induction l generalizing i with
  | nil => intro h; simp [saltedCandidates] at h
  | cons pm rest ih =>
    intro h
    rcases List.mem_cons.mp h with h1 | h1
    · exact ⟨pm, List.mem_cons_self pm rest, by rw [h1], by rw [h1]⟩
    · rcases ih h1 with ⟨pm2, hpm2, he⟩
      exact ⟨pm2, List.mem_cons_of_mem pm hpm2, he⟩

lemma mem_getCandidates_wanted {m : Mediator} {salter : Nat → Nat} {c : Candidate}
    (h : c ∈ getCandidates m salter) :
    ∃ pm ∈ wantedPieces m, c.piece = pm.1 ∧ c.n_blocks_missing = pm.2 := by
  unfold getCandidates at h
  rcases mem_saltedCandidates h with ⟨pm, hpm, he⟩
  refine ⟨pm, ?_, he⟩
  by_cases hc : m.isSequentialDownload = true ∧ 0 < m.sequentialDownloadFromPiece ∧
      m.sequentialDownloadFromPiece < (wantedPieces m).length
  · rw [if_pos hc] at hpm
    rcases List.mem_append.mp hpm with h2 | h2
    · exact List.drop_subset _ _ h2
    · exact List.take_subset _ _ h2
  · rw [if_neg hc] at hpm
    exact hpm

lemma pieceOk_of_mem_getCandidates {m : Mediator} {salter : Nat → Nat} {c : Candidate}
    (h : c ∈ getCandidates m salter) :
    m.clientCanRequestPiece c.piece = true ∧ 0 < m.countMissingBlocks c.piece := by
  rcases mem_getCandidates_wanted h with ⟨pm, hpm, he1, _⟩
  have hw := mem_wantedPieces hpm
  rw [he1]
  exact ⟨hw.2.1, hw.2.2.1⟩

lemma getCandidates_rot (m : Mediator) (salter : Nat → Nat)
    (hseq : m.isSequentialDownload = true) (h0 : 0 < m.sequentialDownloadFromPiece)
    (hlt : m.sequentialDownloadFromPiece < (wantedPieces m).length) :
    (getCandidates m salter).map Candidate.piece =
      ((wantedPieces m).drop m.sequentialDownloadFromPiece ++
        (wantedPieces m).take m.sequentialDownloadFromPiece).map Prod.fst := by
  simp only [getCandidates]
  rw [if_pos ⟨hseq, h0, hlt⟩]
  exact saltedCandidates_map_piece m salter m.isSequentialDownload 0 _

lemma getCandidates_norot (m : Mediator) (salter : Nat → Nat)
    (h : ¬(m.isSequentialDownload = true ∧ 0 < m.sequentialDownloadFromPiece ∧
      m.sequentialDownloadFromPiece < (wantedPieces m).length)) :
    (getCandidates m salter).map Candidate.piece = (wantedPieces m).map Prod.fst := by
  simp only [getCandidates]
  rw [if_neg h]
  exact saltedCandidates_map_piece m salter m.isSequentialDownload 0 _

lemma getCandidates_first (m : Mediator) (salter : Nat → Nat)
    (hseq : m.isSequentialDownload = true) (h0 : 0 < m.sequentialDownloadFromPiece)
    (hlt : m.sequentialDownloadFromPiece < (wantedPieces m).length) :
    ((getCandidates m salter).map Candidate.piece)[0]? =
      ((wantedPieces m)[m.sequentialDownloadFromPiece]?).map Prod.fst := by
  rw [getCandidates_rot m salter hseq h0 hlt]
  rw [List.getElem?_map]
  have hd : ((wantedPieces m).drop m.sequentialDownloadFromPiece ++
      (wantedPieces m).take m.sequentialDownloadFromPiece)[0]? =
      (wantedPieces m)[m.sequentialDownloadFromPiece]? := by
    have h1 : ((wantedPieces m).drop m.sequentialDownloadFromPiece).head? =
        (wantedPieces m)[m.sequentialDownloadFromPiece]? :=
      List.head?_drop (wantedPieces m) m.sequentialDownloadFromPiece
    have h2 : ∃ v, (wantedPieces m)[m.sequentialDownloadFromPiece]? = some v := by
      rw [List.getElem?_eq_getElem hlt]
      exact ⟨_, rfl⟩
    rcases h2 with ⟨v, hv⟩
    rw [← List.head?_eq_getElem?, List.head?_append, h1, hv]
    rfl
  rw [hd]

/-! ## Properties of slow-request preemption -/

lemma cancelSlowLoop_spec (ps now : Nat) : ∀ (l : List (Peer × Nat)) (q : Peer),
    cancelSlowLoop ps now l = some q →
    ∃ pre w post, l = pre ++ (q, w) :: post ∧ q.speed ≠ 0 ∧
      isSlowScore (slowScore ps q.speed now w) ∧
      ∀ e ∈ pre, e.1.speed = 0 ∨ ¬ isSlowScore (slowScore ps e.1.speed now e.2) := by
  intro l
  induction l with
  | nil => intro q h; simp [cancelSlowLoop] at h
  | cons pw rest ih =>
    intro q h
    by_cases h1 : pw.1.speed = 0
    · rw [show cancelSlowLoop ps now (pw :: rest) = cancelSlowLoop ps now rest from by
        simp [cancelSlowLoop, h1]] at h
      rcases ih q h with ⟨pre, w, post, hl, hq, hslow, hpre⟩
      refine ⟨pw :: pre, w, post, by rw [List.cons_append, hl], hq, hslow, ?_⟩
      intro e he
      rcases List.mem_cons.mp he with he1 | he1
      · exact Or.inl (by rw [he1]; exact h1)
      · exact hpre e he1
    · by_cases h2 : isSlowScore (slowScore ps pw.1.speed now pw.2)
      · rw [show cancelSlowLoop ps now (pw :: rest) = some pw.1 from by
          simp [cancelSlowLoop, h1, h2]] at h
        have hq : q = pw.1 := (Option.some.inj h).symm
        refine ⟨[], pw.2, rest, ?_, by rw [hq]; exact h1, by rw [hq]; exact h2, by simp⟩
        rw [hq]
        simp
      · rw [show cancelSlowLoop ps now (pw :: rest) = cancelSlowLoop ps now rest from by
          simp [cancelSlowLoop, h1, h2]] at h
        rcases ih q h with ⟨pre, w, post, hl, hq, hslow, hpre⟩
        refine ⟨pw :: pre, w, post, by rw [List.cons_append, hl], hq, hslow, ?_⟩
        intro e he
        rcases List.mem_cons.mp he with he1 | he1
        · exact Or.inr (by rw [he1]; exact h2)
        · exact hpre e he1

lemma cancelSlowRequest_speed0 (m : Mediator) (block : Nat) (peer : Peer)
    (h : peer.speed = 0) : cancelSlowRequest m block peer = (m, []) := by
  simp [cancelSlowRequest, h]

lemma cancelSlowRequest_len (m : Mediator) (block : Nat) (peer : Peer) :
    (cancelSlowRequest m block peer).2.length ≤ 1 := by
  unfold cancelSlowRequest
  by_cases h : peer.speed = 0
  · simp [h]
  · simp only [if_neg h]
    cases hl : cancelSlowLoop peer.speed m.now (m.getPeersForActiveRequests block) with
    | none => simp
    | some cur => simp

lemma cancelSlowRequest_nil (m : Mediator) (block : Nat) (peer : Peer)
    (h : (cancelSlowRequest m block peer).2 = []) :
    (cancelSlowRequest m block peer).1 = m := by
  unfold cancelSlowRequest at h ⊢
  by_cases h1 : peer.speed = 0
  · simp [h1]
  · simp only [if_neg h1] at h ⊢
    cases hl : cancelSlowLoop peer.speed m.now (m.getPeersForActiveRequests block) with
    | none => simp
    | some cur => rw [hl] at h; simp at h

lemma cancelSlowRequest_mem (m : Mediator) (block : Nat) (peer : Peer) (q : Peer) (blk : Nat)
    (h : (q, blk) ∈ (cancelSlowRequest m block peer).2) :
    blk = block ∧ peer.speed ≠ 0 ∧ q.speed ≠ 0 ∧
      (cancelSlowRequest m block peer).1 = cancelRequestForBlock m q block ∧
      ∃ pre w post, m.getPeersForActiveRequests block = pre ++ (q, w) :: post ∧
        isSlowScore (slowScore peer.speed q.speed m.now w) ∧
        ∀ e ∈ pre, e.1.speed = 0 ∨ ¬ isSlowScore (slowScore peer.speed e.1.speed m.now e.2) := by
  unfold cancelSlowRequest at h ⊢
  by_cases h1 : peer.speed = 0
  · simp [h1] at h
  · simp only [if_neg h1] at h ⊢
    cases hl : cancelSlowLoop peer.speed m.now (m.getPeersForActiveRequests block) with
    | none => rw [hl] at h; simp at h
    | some cur =>
      rw [hl] at h
      simp only [List.mem_singleton, Prod.mk.injEq] at h
      rcases cancelSlowLoop_spec peer.speed m.now (m.getPeersForActiveRequests block) cur hl
        with ⟨pre, w, post, hsplit, hq2, hslow, hpre⟩
      obtain ⟨hqc, hblk⟩ := h
      subst hqc
      subst hblk
      exact ⟨rfl, h1, hq2, by simp, pre, w, post, hsplit, hslow, hpre⟩

/-! ## The mediator fields the scheduler never mutates -/

/-- All mediator components other than the active-request table agree:
the scheduler's only mutation (request cancellation) preserves them. -/
def SameCore (m0 m1 : Mediator) : Prop :=
  m1.countAllPieces = m0.countAllPieces ∧
  m1.clientCanRequestPiece = m0.clientCanRequestPiece ∧
  m1.countMissingBlocks = m0.countMissingBlocks ∧
  m1.priority = m0.priority ∧
  m1.blockSpan = m0.blockSpan ∧
  m1.clientCanRequestBlock = m0.clientCanRequestBlock ∧
  m1.isSequentialDownload = m0.isSequentialDownload ∧
  m1.sequentialDownloadFromPiece = m0.sequentialDownloadFromPiece ∧
  m1.isEndgame = m0.isEndgame ∧
  m1.now = m0.now

lemma SameCore.refl (m : Mediator) : SameCore m m :=
  ⟨rfl, rfl, rfl, rfl, rfl, rfl, rfl, rfl, rfl, rfl⟩

lemma SameCore.trans {m0 m1 m2 : Mediator} (h1 : SameCore m0 m1) (h2 : SameCore m1 m2) :
    SameCore m0 m2 := by
  obtain ⟨a1, b1, c1, d1, e1, f1, g1, h1a, i1, j1⟩ := h1
  obtain ⟨a2, b2, c2, d2, e2, f2, g2, h2a, i2, j2⟩ := h2
  exact ⟨a2.trans a1, b2.trans b1, c2.trans c1, d2.trans d1, e2.trans e1, f2.trans f1,
    g2.trans g1, h2a.trans h1a, i2.trans i1, j2.trans j1⟩

lemma cancelRequestForBlock_sameCore (m : Mediator) (p : Peer) (b : Nat) :
    SameCore m (cancelRequestForBlock m p b) :=
  ⟨rfl, rfl, rfl, rfl, rfl, rfl, rfl, rfl, rfl, rfl⟩

lemma cancelSlowRequest_sameCore (m : Mediator) (block : Nat) (peer : Peer) :
    SameCore m (cancelSlowRequest m block peer).1 := by
  unfold cancelSlowRequest
  by_cases h1 : peer.speed = 0
  · simp only [if_pos h1]
    exact SameCore.refl m
  · simp only [if_neg h1]
    cases hl : cancelSlowLoop peer.speed m.now (m.getPeersForActiveRequests block) with
    | none => exact SameCore.refl m
    | some cur => exact cancelRequestForBlock_sameCore m cur block

/-! ## Arithmetic of the preemption score -/

lemma isSlowScore_iff (res : Int) : isSlowScore res ↔ 2 ≤ res := by
  unfold isSlowScore
  constructor
  · intro h
    by_contra hc
    have h1 : res ≤ 1 := by omega
    have h2 : (res : ℚ) ≤ 1 := by exact_mod_cast h1
    have : (1.5 : ℚ) < 1 := lt_of_lt_of_le h h2
    norm_num at this
  · intro h
    calc (1.5 : ℚ) < 2 := by norm_num
      _ ≤ (res : ℚ) := by exact_mod_cast h

lemma slowScore_discount_nonneg (vN now t : Nat) (h : t ≤ now) :
    0 ≤ (((now : Int) - (t : Int)) * (vN : Int)).tdiv (BlockSize : Int) := by
  apply Int.tdiv_nonneg
  · apply mul_nonneg
    · have : (t : Int) ≤ (now : Int) := by exact_mod_cast h
      omega
    · exact Int.natCast_nonneg vN
  · exact Int.natCast_nonneg BlockSize

lemma slowScore_le_quot (vN vC now t : Nat) (h : t ≤ now) :
    slowScore vN vC now t ≤ ((vN / vC : Nat) : Int) := by
  unfold slowScore
  have := slowScore_discount_nonneg vN now t h
  omega

lemma slowScore_cancel_speed (vN vC now t : Nat) (h : t ≤ now)
    (hs : isSlowScore (slowScore vN vC now t)) : 2 * vC ≤ vN := by
  have h2 : 2 ≤ slowScore vN vC now t := (isSlowScore_iff _).mp hs
  have h3 : (2 : Int) ≤ ((vN / vC : Nat) : Int) := le_trans h2 (slowScore_le_quot vN vC now t h)
  have h4 : 2 ≤ vN / vC := by exact_mod_cast h3
  by_cases hc : vC = 0
  · rw [hc] at h4
    simp at h4
  · have := (Nat.le_div_iff_mul_le (Nat.pos_of_ne_zero hc)).mp h4
    omega

/-! ## The mining-loop invariant -/

/-- max_peers of the duplication policy. -/
def maxPeersOf (m : Mediator) : Nat := if m.isEndgame then 2 else 1

/-- The block lies in the span of some piece the client may request that
still has a missing block. -/
def PieceCover (m0 : Mediator) (b : Nat) : Prop :=
  ∃ p, m0.clientCanRequestPiece p = true ∧ 0 < m0.countMissingBlocks p ∧
    (m0.blockSpan p).1 ≤ b ∧ b < (m0.blockSpan p).2

/-- What holds of every block in the picked set: it is requestable,
covered by an eligible piece, and its recorded selection event shows the
re-read active-request count was below max_peers. -/
def BlockOk (m0 : Mediator) (picks : List (Nat × Nat)) (b : Nat) : Prop :=
  m0.clientCanRequestBlock b = true ∧ PieceCover m0 b ∧
    ∃ n, (b, n) ∈ picks ∧ n < maxPeersOf m0

/-- The invariant of the mining loop of Wishlist::next, relative to the
mediator `m0` the call started from. -/
def MineInv (m0 : Mediator) (nW : Nat) (isSeq : Bool) (st : NextState) : Prop :=
  SameCore m0 st.m ∧
  List.Sorted (· < ·) st.blocks ∧
  st.blocks.length ≤ nW ∧
  (∀ b ∈ st.blocks, BlockOk m0 st.picks b) ∧
  (isSeq = false → st.cancels = [] ∧ st.preempts = []) ∧
  (∀ q ∈ st.preempts, m0.clientCanRequestBlock q.1 = true ∧ 0 < q.2)

lemma BlockOk_append (m0 : Mediator) (picks t : List (Nat × Nat)) (b : Nat)
    (h : BlockOk m0 picks b) : BlockOk m0 (picks ++ t) b := by
  obtain ⟨h1, h2, n, hn, hlt⟩ := h
  exact ⟨h1, h2, n, List.mem_append_left t hn, hlt⟩

lemma mineBlockPre_inv (m0 : Mediator) (nW : Nat) (peer : Peer) (isSeq : Bool)
    (st : NextState) (block : Nat) (hinv : MineInv m0 nW isSeq st)
    (hb : m0.clientCanRequestBlock block = true) :
    MineInv m0 nW isSeq (mineBlockPre peer isSeq st block) ∧
    (mineBlockPre peer isSeq st block).blocks = st.blocks ∧
    (mineBlockPre peer isSeq st block).picks = st.picks := by
  obtain ⟨hcore, hsort, hlenle, hblocks, hnoseq, hpreok⟩ := hinv
  unfold mineBlockPre
  by_cases hg : isSeq = true ∧ 0 < st.m.countActiveRequests block
  · rw [if_pos hg]
    refine ⟨⟨SameCore.trans hcore (cancelSlowRequest_sameCore st.m block peer),
      hsort, hlenle, hblocks, ?_, ?_⟩, rfl, rfl⟩
    · intro hf
      rw [hf] at hg
      exact absurd hg.1 (by simp)
    · intro q hq
      rcases List.mem_append.mp hq with h1 | h1
      · exact hpreok q h1
      · have hqe : q = (block, st.m.countActiveRequests block) := by
          simpa using h1
        rw [hqe]
        exact ⟨hb, hg.2⟩
  · rw [if_neg hg]
    exact ⟨⟨hcore, hsort, hlenle, hblocks, hnoseq, hpreok⟩, rfl, rfl⟩

lemma mineBlockPick_inv (m0 : Mediator) (nW : Nat) (isSeq : Bool)
    (st1 : NextState) (block : Nat) (hinv : MineInv m0 nW isSeq st1)
    (hlen : st1.blocks.length < nW)
    (hb : m0.clientCanRequestBlock block = true) (hpc : PieceCover m0 block) :
    MineInv m0 nW isSeq (mineBlockPick st1 block) := by
  obtain ⟨hcore, hsort, hlenle, hblocks, hnoseq, hpreok⟩ := hinv
  have hend : st1.m.isEndgame = m0.isEndgame := hcore.2.2.2.2.2.2.2.2.1
  unfold mineBlockPick
  by_cases hdup : (if st1.m.isEndgame then 2 else 1) ≤ st1.m.countActiveRequests block
  · rw [if_pos hdup]
    exact ⟨hcore, hsort, hlenle, hblocks, hnoseq, hpreok⟩
  · rw [if_neg hdup]
    have hmax : (if st1.m.isEndgame then 2 else 1) = maxPeersOf m0 := by
      rw [hend]; rfl
    refine ⟨hcore, sorted_setInsert block st1.blocks hsort, ?_, ?_, hnoseq, hpreok⟩
    · calc (setInsert block st1.blocks).length ≤ st1.blocks.length + 1 :=
        length_setInsert_le block st1.blocks
        _ ≤ nW := by omega
    · intro b hbmem
      rcases (mem_setInsert block b st1.blocks).mp hbmem with h1 | h1
      · subst h1
        refine ⟨hb, hpc, st1.m.countActiveRequests b, ?_, ?_⟩
        · exact List.mem_append_right _ (by simp)
        · rw [← hmax]; omega
      · exact BlockOk_append m0 st1.picks _ b (hblocks b h1)

lemma mineBlock_inv (m0 : Mediator) (nW : Nat) (peer : Peer) (isSeq : Bool)
    (st : NextState) (block : Nat) (hinv : MineInv m0 nW isSeq st)
    (hlen : st.blocks.length < nW) (hpc : PieceCover m0 block) :
    MineInv m0 nW isSeq (mineBlock peer isSeq st block) := by
  have hcrb : st.m.clientCanRequestBlock = m0.clientCanRequestBlock :=
    hinv.1.2.2.2.2.2.1
  unfold mineBlock
  by_cases hb : st.m.clientCanRequestBlock block = true
  · rw [if_neg (by simp [hb])]
    have hb0 : m0.clientCanRequestBlock block = true := by rw [← hcrb]; exact hb
    obtain ⟨hinv1, hblk1, _⟩ := mineBlockPre_inv m0 nW peer isSeq st block hinv hb0
    exact mineBlockPick_inv m0 nW isSeq _ block hinv1 (by rw [hblk1]; exact hlen) hb0 hpc
  · rw [if_pos (by simp [Bool.not_eq_true] at hb ⊢; exact hb)]
    exact hinv

lemma mineBlocks_inv (m0 : Mediator) (nW : Nat) (peer : Peer) (isSeq : Bool) :
    ∀ (fuel b : Nat) (st : NextState), MineInv m0 nW isSeq st →
    (∀ bb, b ≤ bb → bb < b + fuel → PieceCover m0 bb) →
    MineInv m0 nW isSeq (mineBlocks peer isSeq nW fuel b st) := by
  intro fuel
  induction fuel with
  | zero => intro b st h _; exact h
  | succ n ih =>
    intro b st hinv hcov
    show MineInv m0 nW isSeq
      (if st.blocks.length < nW then
        mineBlocks peer isSeq nW n (b + 1) (mineBlock peer isSeq st b) else st)
    by_cases hl : st.blocks.length < nW
    · rw [if_pos hl]
      refine ih (b + 1) _ (mineBlock_inv m0 nW peer isSeq st b hinv hl
        (hcov b le_rfl (by omega))) ?_
      intro bb h1 h2
      exact hcov bb (by omega) (by omega)
    · rw [if_neg hl]
      exact hinv

lemma mineCandidates_inv (m0 : Mediator) (nW : Nat) (peer : Peer) (isSeq : Bool) :
    ∀ (l : List Candidate) (st : NextState), MineInv m0 nW isSeq st →
    (∀ c ∈ l, m0.clientCanRequestPiece c.piece = true ∧ 0 < m0.countMissingBlocks c.piece) →
    MineInv m0 nW isSeq (mineCandidates peer isSeq nW st l) := by
  intro l
  induction l with
  | nil => intro st h _; exact h
  | cons c rest ih =>
    intro st hinv hcand
    show MineInv m0 nW isSeq
      (if nW ≤ st.blocks.length then st
       else mineCandidates peer isSeq nW
        (mineBlocks peer isSeq nW
          ((st.m.blockSpan c.piece).2 - (st.m.blockSpan c.piece).1)
          (st.m.blockSpan c.piece).1 st) rest)
    by_cases hl : nW ≤ st.blocks.length
    · rw [if_pos hl]
      exact hinv
    · rw [if_neg hl]
      have hspan : st.m.blockSpan = m0.blockSpan := hinv.1.2.2.2.2.1
      refine ih _ (mineBlocks_inv m0 nW peer isSeq _ _ st hinv ?_) ?_
      · intro bb h1 h2
        refine ⟨c.piece, (hcand c (List.mem_cons_self c rest)).1,
          (hcand c (List.mem_cons_self c rest)).2, ?_, ?_⟩
        · rw [← hspan]; exact h1
        · rw [← hspan]; omega
      · intro c2 h2
        exact hcand c2 (List.mem_cons_of_mem c h2)

lemma initState_inv (m : Mediator) (nW : Nat) (isSeq : Bool) :
    MineInv m nW isSeq (initState m) := by
  refine ⟨SameCore.refl m, ?_, ?_, ?_, ?_, ?_⟩ <;> simp [initState]

lemma mem_orderedCandidates {m : Mediator} {salter : Nat → Nat} {c : Candidate}
    (h : c ∈ orderedCandidates m salter) : c ∈ getCandidates m salter := by
  unfold orderedCandidates at h
  by_cases hs : m.isSequentialDownload = true
  · rw [if_neg (by simp [hs])] at h
    exact h
  · rw [if_pos (by simp [Bool.not_eq_true] at hs ⊢; exact hs)] at h
    exact (List.perm_insertionSort Candidate.le (getCandidates m salter)).mem_iff.mp h

lemma next_inv (m : Mediator) (salter : Nat → Nat) (nW : Nat) (peer : Peer)
    (h : nW ≠ 0) :
    MineInv m nW m.isSequentialDownload ((Wishlist.next m salter nW peer).2) ∧
    (Wishlist.next m salter nW peer).1 =
      makeSpans ((Wishlist.next m salter nW peer).2).blocks := by
  unfold Wishlist.next
  rw [if_neg h]
  refine ⟨?_, rfl⟩
  refine mineCandidates_inv m nW peer m.isSequentialDownload _ _ (initState_inv m nW _) ?_
  intro c hc
  exact pieceOk_of_mem_getCandidates (mem_orderedCandidates hc)

/-! ## Concrete instances used by witnesses and counterexamples -/

/-- The identity salt stream, used to instantiate witnesses. -/
def saltSeq : Nat → Nat := fun i => i

/-- A small non-sequential transfer: 3 pieces of 4 blocks each, missing
counts 3, 1, 2, nothing requested yet. -/
def mediatorA : Mediator :=
  { countAllPieces := 3
    clientCanRequestPiece := fun _ => true
    countMissingBlocks := fun p => if p = 0 then 3 else if p = 1 then 1 else 2
    priority := fun _ => 0
    blockSpan := fun p => (4 * p, 4 * p + 4)
    clientCanRequestBlock := fun _ => true
    activeRequests := fun _ => []
    isSequentialDownload := false
    sequentialDownloadFromPiece := 0
    isEndgame := false
    now := 100 }

/-- A peer used to instantiate witnesses. -/
def peerA : Peer := ⟨0, 50⟩

/-- A sequential transfer where piece 0 is not wanted: the wanted list is
pieces 1, 2, 3, and the rotation origin is 2. -/
def mediatorRot : Mediator :=
  { countAllPieces := 4
    clientCanRequestPiece := fun p => decide (0 < p)
    countMissingBlocks := fun _ => 1
    priority := fun _ => 0
    blockSpan := fun p => (p, p + 1)
    clientCanRequestBlock := fun _ => true
    activeRequests := fun _ => []
    isSequentialDownload := true
    sequentialDownloadFromPiece := 2
    isEndgame := false
    now := 100 }

/-- A sequential transfer with two wanted pieces whose missing counts
(3 then 1) violate the completion-bias order. -/
def mediatorSeqTwo : Mediator :=
  { countAllPieces := 2
    clientCanRequestPiece := fun _ => true
    countMissingBlocks := fun p => if p = 0 then 3 else 1
    priority := fun _ => 0
    blockSpan := fun p => (4 * p, 4 * p + 4)
    clientCanRequestBlock := fun _ => true
    activeRequests := fun _ => []
    isSequentialDownload := true
    sequentialDownloadFromPiece := 0
    isEndgame := false
    now := 0 }

/-! ## The claims -/

/-- C1: for every call to next with n_wanted > 0, every block b of the
returned spans is requestable (`clientCanRequestBlock`), lies in the
block span of some piece p with `clientCanRequestPiece p` and
`countMissingBlocks p > 0`, and at the moment b was selected the re-read
`countActiveRequests b` (recorded in the picks log) was strictly below
max_peers (2 in endgame, else 1). -/
theorem next_returned_blocks_eligible (m : Mediator) (salter : Nat → Nat) (nW : Nat)
    (peer : Peer) (hn : 0 < nW) :
    ∀ b ∈ expandSpans ((Wishlist.next m salter nW peer).1),
      m.clientCanRequestBlock b = true ∧
      (∃ p, m.clientCanRequestPiece p = true ∧ 0 < m.countMissingBlocks p ∧
        (m.blockSpan p).1 ≤ b ∧ b < (m.blockSpan p).2) ∧
      (∃ n, (b, n) ∈ ((Wishlist.next m salter nW peer).2).picks ∧
        n < (if m.isEndgame then 2 else 1)) := by
  obtain ⟨hinv, hspans⟩ := next_inv m salter nW peer (by omega)
  intro b hb
  rw [hspans, makeSpans_expand _ hinv.2.1] at hb
  obtain ⟨h1, h2, n, hn2, hlt⟩ := hinv.2.2.2.1 b hb
  exact ⟨h1, h2, n, hn2, by simpa [maxPeersOf] using hlt⟩

/-- C1 witness: the theorem instantiated at a concrete call. -/
theorem next_returned_blocks_eligible_witness :
    0 < 5 ∧
    ∀ b ∈ expandSpans ((Wishlist.next mediatorA saltSeq 5 peerA).1),
      mediatorA.clientCanRequestBlock b = true ∧
      (∃ p, mediatorA.clientCanRequestPiece p = true ∧
        0 < mediatorA.countMissingBlocks p ∧
        (mediatorA.blockSpan p).1 ≤ b ∧ b < (mediatorA.blockSpan p).2) ∧
      (∃ n, (b, n) ∈ ((Wishlist.next mediatorA saltSeq 5 peerA).2).picks ∧
        n < (if mediatorA.isEndgame then 2 else 1)) :=
  ⟨by decide, next_returned_blocks_eligible mediatorA saltSeq 5 peerA (by decide)⟩

/-- C2: on a strictly ascending input the span packer emits spans in
ascending order of begin, pairwise disjoint and non-adjacent (gap of at
least one), each non-empty, whose expansion is exactly the input; the
empty input yields the empty span list. -/
theorem makeSpans_roundtrip (l : List Nat) (hsort : List.Sorted (· < ·) l) :
    expandSpans (makeSpans l) = l ∧
    (∀ s ∈ makeSpans l, s.1 < s.2) ∧
    List.Pairwise (fun s t : Nat × Nat => s.2 < t.1) (makeSpans l) ∧
    List.Pairwise (fun s t : Nat × Nat => s.1 < t.1) (makeSpans l) ∧
    (l = [] → makeSpans l = []) := by
  have hwf := makeSpans_wf l hsort
  have hpw := chainSpans_pairwise _ hwf (makeSpans_chain l hsort)
  refine ⟨makeSpans_expand l hsort, hwf, hpw, ?_, ?_⟩
  · refine List.Pairwise.imp_of_mem ?_ hpw
    intro s t hs ht hr
    have := hwf s hs
    omega
  · intro hl
    rw [hl]
    rfl

/-- C2 witness: the theorem instantiated at a concrete ascending input. -/
theorem makeSpans_roundtrip_witness :
    List.Sorted (· < ·) [4, 5, 6, 8] ∧
    (expandSpans (makeSpans [4, 5, 6, 8]) = [4, 5, 6, 8] ∧
    (∀ s ∈ makeSpans [4, 5, 6, 8], s.1 < s.2) ∧
    List.Pairwise (fun s t : Nat × Nat => s.2 < t.1) (makeSpans [4, 5, 6, 8]) ∧
    List.Pairwise (fun s t : Nat × Nat => s.1 < t.1) (makeSpans [4, 5, 6, 8]) ∧
    ([4, 5, 6, 8] = ([] : List Nat) → makeSpans [4, 5, 6, 8] = [])) :=
  ⟨by decide, makeSpans_roundtrip [4, 5, 6, 8] (by decide)⟩

/-- C3: the total number of block indices covered by the spans returned
by next is at most n_wanted. -/
theorem next_total_blocks_le (m : Mediator) (salter : Nat → Nat) (nW : Nat)
    (peer : Peer) : totalSpanBlocks ((Wishlist.next m salter nW peer).1) ≤ nW := by
  by_cases h : nW = 0
  · subst h
    show totalSpanBlocks ([], initState m).1 ≤ 0
    simp [totalSpanBlocks]
  · obtain ⟨hinv, hspans⟩ := next_inv m salter nW peer h
    rw [hspans, ← expandSpans_length, makeSpans_expand _ hinv.2.1]
    exact hinv.2.2.1

/-- C4: cancelSlowRequest does nothing when the new peer's speed is 0;
it issues at most one cancellation; when it cancels nothing the mediator
is untouched; and any cancellation hits the first active pair whose peer
has non-zero speed and whose integer score exceeds 1.5, every earlier
pair having speed 0 or a score of at most 1.5, the mediator being
updated by exactly that one cancelRequestForBlock call. -/
theorem cancelSlowRequest_behavior (m : Mediator) (block : Nat) (peer : Peer) :
    (peer.speed = 0 → cancelSlowRequest m block peer = (m, [])) ∧
    (cancelSlowRequest m block peer).2.length ≤ 1 ∧
    ((cancelSlowRequest m block peer).2 = [] → (cancelSlowRequest m block peer).1 = m) ∧
    (∀ q blk, (q, blk) ∈ (cancelSlowRequest m block peer).2 →
      blk = block ∧ peer.speed ≠ 0 ∧ q.speed ≠ 0 ∧
      (cancelSlowRequest m block peer).1 = cancelRequestForBlock m q block ∧
      ∃ pre w post, m.getPeersForActiveRequests block = pre ++ (q, w) :: post ∧
        isSlowScore (slowScore peer.speed q.speed m.now w) ∧
        ∀ e ∈ pre, e.1.speed = 0 ∨
          ¬ isSlowScore (slowScore peer.speed e.1.speed m.now e.2)) :=
  ⟨cancelSlowRequest_speed0 m block peer, cancelSlowRequest_len m block peer,
    cancelSlowRequest_nil m block peer,
    fun q blk h => cancelSlowRequest_mem m block peer q blk h⟩

/-- C5 counterexample: a sequential transfer whose wanted pieces are
1, 2, 3 (piece 0 is not wanted) with origin 2.  The origin is valid
(0 < 2 < 3 wanted pieces), yet the first candidate considered by the
mining loop is piece 3 — the origin-th WANTED piece — not piece 2, so
"the first candidate considered is piece origin" fails as stated. -/
theorem rotation_first_not_origin :
    mediatorRot.isSequentialDownload = true ∧
    mediatorRot.sequentialDownloadFromPiece = 2 ∧
    0 < mediatorRot.sequentialDownloadFromPiece ∧
    mediatorRot.sequentialDownloadFromPiece < (wantedPieces mediatorRot).length ∧
    ((orderedCandidates mediatorRot saltSeq).map Candidate.piece)[0]? = some 3 ∧
    ((orderedCandidates mediatorRot saltSeq).map Candidate.piece)[0]? ≠ some 2 := by
  decide

/-- C5 (amended): in sequential mode with 0 < origin < len(W), the
wanted list W is rotated left by origin so W[origin] becomes the first
entry, and — the sorting step being skipped — the first candidate
considered by the mining loop is the PIECE OF W[origin], the origin-th
wanted piece (equal to piece origin only when every piece below the
origin position is wanted).  When origin is out of that range no
rotation occurs. -/
theorem rotation_spec (m : Mediator) (salter : Nat → Nat) :
    (m.isSequentialDownload = true → 0 < m.sequentialDownloadFromPiece →
      m.sequentialDownloadFromPiece < (wantedPieces m).length →
      (getCandidates m salter).map Candidate.piece =
        ((wantedPieces m).drop m.sequentialDownloadFromPiece ++
          (wantedPieces m).take m.sequentialDownloadFromPiece).map Prod.fst ∧
      ((getCandidates m salter).map Candidate.piece)[0]? =
        ((wantedPieces m)[m.sequentialDownloadFromPiece]?).map Prod.fst ∧
      orderedCandidates m salter = getCandidates m salter) ∧
    (¬(m.isSequentialDownload = true ∧ 0 < m.sequentialDownloadFromPiece ∧
        m.sequentialDownloadFromPiece < (wantedPieces m).length) →
      (getCandidates m salter).map Candidate.piece = (wantedPieces m).map Prod.fst) := by
  constructor
  · intro hseq h0 hlt
    refine ⟨getCandidates_rot m salter hseq h0 hlt,
      getCandidates_first m salter hseq h0 hlt, ?_⟩
    unfold orderedCandidates
    rw [if_neg (by simp [hseq])]
  · intro h
    exact getCandidates_norot m salter h

/-- C5 witness: the amended theorem instantiated at the concrete
sequential transfer, its hypotheses discharged. -/
theorem rotation_spec_witness :
    mediatorRot.isSequentialDownload = true ∧
    0 < mediatorRot.sequentialDownloadFromPiece ∧
    mediatorRot.sequentialDownloadFromPiece < (wantedPieces mediatorRot).length ∧
    ((getCandidates mediatorRot saltSeq).map Candidate.piece =
      ((wantedPieces mediatorRot).drop mediatorRot.sequentialDownloadFromPiece ++
        (wantedPieces mediatorRot).take mediatorRot.sequentialDownloadFromPiece).map
        Prod.fst ∧
    ((getCandidates mediatorRot saltSeq).map Candidate.piece)[0]? =
      ((wantedPieces mediatorRot)[mediatorRot.sequentialDownloadFromPiece]?).map
        Prod.fst ∧
    orderedCandidates mediatorRot saltSeq = getCandidates mediatorRot saltSeq) :=
  ⟨by decide, by decide, by decide,
    (rotation_spec mediatorRot saltSeq).1 (by decide) (by decide) (by decide)⟩

/-- C6 counterexample: in a sequential call the candidates are processed
in rotated piece order, and with missing counts 3 then 1 the first
min(30, len) candidates are NOT mutually in the §4.1 least-first order,
refuting the claim's "for every call" clause. -/
theorem seq_prefix_unordered :
    mediatorSeqTwo.isSequentialDownload = true ∧
    ¬ List.Pairwise Candidate.le
      ((orderedCandidates mediatorSeqTwo saltSeq).take
        (min 30 (orderedCandidates mediatorSeqTwo saltSeq).length)) := by
  decide

/-- C6 (amended): in non-sequential mode the candidate list next
iterates has its first min(30, len) elements (indeed all elements, in
this embedding's refinement of std::partial_sort) mutually ordered by
the §4.1 least-first order; in sequential mode the sorting step is
skipped entirely and the candidates stay in enumeration (rotated piece)
order, which need not satisfy that order. -/
theorem partial_sort_spec (m : Mediator) (salter : Nat → Nat) :
    (m.isSequentialDownload = false →
      List.Pairwise Candidate.le
        ((orderedCandidates m salter).take
          (min 30 (orderedCandidates m salter).length))) ∧
    (m.isSequentialDownload = true →
      orderedCandidates m salter = getCandidates m salter) := by
  constructor
  · intro h
    unfold orderedCandidates
    rw [if_pos (by simp [h])]
    exact List.Pairwise.sublist (List.take_sublist _ _)
      (List.sorted_insertionSort Candidate.le (getCandidates m salter))
  · intro h
    unfold orderedCandidates
    rw [if_neg (by simp [h])]

/-- C6 witness: the amended theorem's non-sequential half instantiated
at a concrete call. -/
theorem partial_sort_spec_witness :
    List.Pairwise Candidate.le
      ((orderedCandidates mediatorA saltSeq).take
        (min 30 (orderedCandidates mediatorA saltSeq).length)) :=
  (partial_sort_spec mediatorA saltSeq).1 (by decide)

/-- C7: next never issues a cancellation (and never invokes preemption)
in non-sequential mode, and every preemption invocation it performs is
for a requestable block whose active-request count at invocation was
positive. -/
theorem next_preemption_scope (m : Mediator) (salter : Nat → Nat) (nW : Nat)
    (peer : Peer) :
    (m.isSequentialDownload = false →
      ((Wishlist.next m salter nW peer).2).cancels = [] ∧
      ((Wishlist.next m salter nW peer).2).preempts = []) ∧
    (∀ q ∈ ((Wishlist.next m salter nW peer).2).preempts,
      m.clientCanRequestBlock q.1 = true ∧ 0 < q.2) := by
  by_cases h : nW = 0
  · subst h
    refine ⟨fun _ => ⟨rfl, rfl⟩, ?_⟩
    intro q hq
    exact absurd hq (by simp [Wishlist.next, initState])
  · obtain ⟨hinv, _⟩ := next_inv m salter nW peer h
    exact ⟨hinv.2.2.2.2.1, hinv.2.2.2.2.2⟩

/-- C8: with n_wanted = 0, next returns the empty span list at once:
the mediator comes back untouched and no event of any kind is logged. -/
theorem next_zero_wanted (m : Mediator) (salter : Nat → Nat) (peer : Peer) :
    Wishlist.next m salter 0 peer = ([], initState m) := rfl

/-- C9: the preemption comparison res > 1.5, computed on the integer
score, is equivalent to res ≥ 2; whenever the request predates the
clock, the discount term is non-negative, so a cancellation-triggering
score forces the new peer to be at least twice as fast as the current
one. -/
theorem slowScore_threshold (vNew vCur now t : Nat) (h : t ≤ now) :
    (isSlowScore (slowScore vNew vCur now t) ↔ 2 ≤ slowScore vNew vCur now t) ∧
    0 ≤ (((now : Int) - (t : Int)) * (vNew : Int)).tdiv (BlockSize : Int) ∧
    (isSlowScore (slowScore vNew vCur now t) → 2 * vCur ≤ vNew) :=
  ⟨isSlowScore_iff _, slowScore_discount_nonneg vNew now t h,
    slowScore_cancel_speed vNew vCur now t h⟩

/-- C9 witness: the theorem instantiated at concrete speeds and times. -/
theorem slowScore_threshold_witness :
    99 ≤ 100 ∧
    ((isSlowScore (slowScore 10000 1000 100 99) ↔ 2 ≤ slowScore 10000 1000 100 99) ∧
    0 ≤ (((100 : Int) - (99 : Int)) * ((10000 : Nat) : Int)).tdiv (BlockSize : Int) ∧
    (isSlowScore (slowScore 10000 1000 100 99) → 2 * 1000 ≤ 10000)) :=
  ⟨by decide, slowScore_threshold 10000 1000 100 99 (by decide)⟩

/-- C10: the picked blocks form a strictly ascending, duplicate-free
sequence — the ordered set the C++ code accumulates — and the spans next
returns are exactly the packing of that sequence, so a block can count
only once toward the n_wanted budget even under overlapping
blockSpan ranges. -/
theorem next_blocks_sorted_nodup (m : Mediator) (salter : Nat → Nat) (nW : Nat)
    (peer : Peer) :
    List.Sorted (· < ·) ((Wishlist.next m salter nW peer).2).blocks ∧
    ((Wishlist.next m salter nW peer).2).blocks.Nodup ∧
    (Wishlist.next m salter nW peer).1 =
      makeSpans ((Wishlist.next m salter nW peer).2).blocks := by
  by_cases h : nW = 0
  · subst h
    refine ⟨?_, ?_, rfl⟩ <;> simp [Wishlist.next, initState]
  · obtain ⟨hinv, hspans⟩ := next_inv m salter nW peer h
    exact ⟨hinv.2.1, hinv.2.1.nodup, hspans⟩
